import Mathlib

/-!
Verification of the go-wappalyzer technology-detection engine.

This file shallowly embeds the core of the repository in Lean 4:
the pattern interpreter (internal/parser/pattern.go), the signature
compiler (internal/parser/compiler.go), the channel matchers
(internal/detection/\*.go), and the detection/closure/lookup code of
pkg/wappalyzer (config.go).  Go strings are modelled as `List Char`
(the repository only ever manipulates ASCII pattern and header text,
on which Go's byte-indexed operations agree with the rune-list view).
Go maps are modelled as association lists updated by replace-or-append,
and Go's `map[string]struct{}` accumulator sets as insertion-ordered
duplicate-free lists.

The Go standard regexp library is external to the repository; the
functions that call it (`CompileRegex`, the `versionPatterns` list)
are therefore taken as parameters of the embedded functions, and the
closed theorems instantiate them with small models whose doc comments
state exactly which behaviour of the real library they capture.
-/

namespace Wapp

/-- Go string, modelled as its list of characters. -/
abbrev Str := List Char

/-- Model of Go `strings.HasPrefix s pre`. -/
def strStartsWith : Str → Str → Bool
  | _, [] => true
  | [], _ :: _ => false
  | c :: cs, p :: ps => c = p && strStartsWith cs ps

/-- Model of Go `strings.Contains s sub`: `sub` occurs as a contiguous
substring of `s` (the empty string occurs in every string). -/
def strContains : Str → Str → Bool
  | [], sub => sub.isEmpty
  | s@(_ :: t), sub => strStartsWith s sub || strContains t sub

/-- Model of Go `strings.ToLower` on ASCII text (`Char.toLower` maps
`A`-`Z` to `a`-`z` and fixes everything else, as Go does on ASCII). -/
def toLowerStr (s : Str) : Str := s.map Char.toLower

/-- White-space characters trimmed by Go `strings.TrimSpace` (ASCII part). -/
def isGoSpace (c : Char) : Bool :=
  c = ' ' || c = '\t' || c = '\n' || c = '\x0b' || c = '\x0c' || c = '\r'

/-- Model of Go `strings.TrimSpace` on ASCII text. -/
def trimStr (s : Str) : Str :=
  ((s.dropWhile isGoSpace).reverse.dropWhile isGoSpace).reverse

/-- Model of Go `strings.Split s sep` for a one-character separator. -/
def splitChar (sep : Char) : Str → List Str
  | [] => [[]]
  | c :: rest =>
    if c = sep then [] :: splitChar sep rest
    else
      match splitChar sep rest with
      | [] => [[c]]
      | h :: t => (c :: h) :: t

/-- Splits at the first occurrence of `sep`, if any. -/
def splitFirst (sep : Char) : Str → Str × Option Str
  | [] => ([], none)
  | c :: rest =>
    if c = sep then ([], some rest)
    else
      let p := splitFirst sep rest
      (c :: p.1, p.2)

/-- Model of Go `strings.SplitN s sep 2` for a one-character separator:
at most two parts, the second part left unsplit. -/
def splitN2 (sep : Char) (s : Str) : List Str :=
  match splitFirst sep s with
  | (a, none) => [a]
  | (a, some b) => [a, b]

/-- Model of Go `strings.Split s "\\;"`: split on the two-character
directive separator, scanning left to right. -/
def splitDirective : Str → List Str
  | [] => [[]]
  | '\\' :: ';' :: rest => [] :: splitDirective rest
  | c :: rest =>
    match splitDirective rest with
    | [] => [[c]]
    | h :: t => (c :: h) :: t

/-- Model of Go `strings.Index s "\\;"`: byte index of the first
occurrence of the directive separator (ASCII, so rune index agrees). -/
def idxDirective : Str → Option Nat
  | [] => none
  | '\\' :: ';' :: _ => some 0
  | _ :: rest => (idxDirective rest).map (· + 1)

/-- Model of `fmt.Sscanf(s, "%d", &n)`: skip leading white space, read an
optional sign and a non-empty run of decimal digits; `none` on failure
(in which case the Go variable keeps its prior value). -/
def sscanfInt (s : Str) : Option Int :=
  let s1 := s.dropWhile isGoSpace
  let core : Str → Option Nat := fun t =>
    let digits := t.takeWhile Char.isDigit
    if digits.isEmpty then none
    else some (digits.foldl (fun n c => n * 10 + (c.toNat - 48)) 0)
  match s1 with
  | '-' :: rest => (core rest).map (fun n => -(n : Int))
  | '+' :: rest => (core rest).map (fun n => (n : Int))
  | _ => (core s1).map (fun n => (n : Int))

/-- Association-list lookup, modelling Go map indexing `m[k]`
(string keys compared exactly, case-sensitively). -/
def lookupA {α β : Type} [DecidableEq α] : List (α × β) → α → Option β
  | [], _ => none
  | (k, v) :: rest, key => if k = key then some v else lookupA rest key

/-- Association-list update, modelling Go map assignment `m[k] = v`
(replace the existing binding, else append). -/
def assocUpd {α β : Type} [DecidableEq α] : List (α × β) → α → β → List (α × β)
  | [], k, v => [(k, v)]
  | (k', v') :: rest, k, v =>
    if k' = k then (k, v) :: rest else (k', v') :: assocUpd rest k v

/-- Set insertion into the accumulator, modelling
`technologies[tech] = struct{}{}` on `map[string]struct{}`. -/
def insertTech (techs : List Str) (tech : Str) : List Str :=
  if tech ∈ techs then techs else techs ++ [tech]

/-! ## Pattern interpreter (internal/parser/pattern.go, regex.go) -/

/-- Embedding of `models.ParsedPattern` (internal/models/patterns.go);
the never-assigned `SkipRegex` optimization flag is omitted. -/
structure ParsedPattern where
  pattern : Str
  isLiteral : Bool
  isCaseSensitive : Bool
  version : Str
  confidence : Int
  deriving DecidableEq, Repr

/-- The regex metacharacters of `isRegexPattern` (pattern.go). -/
def specialChars : List Char :=
  ['\\', '^', '$', '.', '|', '?', '*', '+', '(', '[', '{']

/-- Whether the pattern contains any regex metacharacter
(first half of `isRegexPattern`). -/
def hasSpecialChar (pattern : Str) : Bool :=
  specialChars.any (fun c => pattern.any (fun p => p = c))

/-- Whether the pattern is wrapped in `/.../` delimiters with length above 2
(second half of `isRegexPattern`). -/
def isSlashWrapped (pattern : Str) : Bool :=
  pattern.length > 2 &&
    (match pattern.head?, pattern.getLast? with
     | some a, some b => a = '/' && b = '/'
     | _, _ => false)

/-- Embedding of `isRegexPattern` (pattern.go): a metacharacter anywhere
in the (raw) pattern, or `/.../` wrapping, makes it a regex. -/
def isRegexPattern (pattern : Str) : Bool :=
  hasSpecialChar pattern || isSlashWrapped pattern

/-- Embedding of `isCaseSensitive` (pattern.go). -/
def isCaseSensitive (pattern : Str) : Bool :=
  strContains pattern "(?-i)".data && !strContains pattern "(?i)".data

/-- Embedding of `cleanPatternString` (pattern.go): cut at the first
`\;` when its index is positive, then strip `/.../` wrapping. -/
def cleanPatternString (pattern : Str) : Str :=
  let p1 :=
    match idxDirective pattern with
    | some index => if index > 0 then pattern.take index else pattern
    | none => pattern
  if isSlashWrapped p1 then (p1.drop 1).dropLast else p1

/-- Scan of the directive segments after the first `\;`
(the `for _, part := range parts[1:]` loop of `extractVersionInfo`):
the first `version:` or `confidence:` directive wins. -/
def directiveScanL : List Str → Option (Str × Int)
  | [] => none
  | p :: ps =>
    if strStartsWith p "version:".data then some (p.drop 8, 80)
    else if strStartsWith p "confidence:".data then
      some ([], (sscanfInt (p.drop 11)).getD 100)
    else directiveScanL ps

/-- Embedding of `extractVersionInfo` (pattern.go).  `vh` stands for the
heuristic loop over the four `versionPatterns` regexes: `vh s` is the
first submatch of the first regex that matches `s` (or `none`). -/
def extractVersionInfo (vh : Str → Option Str) (pattern : Str) : Str × Int :=
  let parts := splitDirective pattern
  match parts with
  | _ :: rest@(_ :: _) =>
    match directiveScanL rest with
    | some r => r
    | none =>
      match vh pattern with
      | some v => (v, 70)
      | none => ([], 100)
  | _ =>
    match vh pattern with
    | some v => (v, 70)
    | none => ([], 100)

/-- Embedding of `ParsePattern` (pattern.go).  `rc` stands for
`CompileRegex` (regex.go): `rc p` is `none` when compilation of the
normalized pattern fails, otherwise the `MatchString` behaviour of the
compiled regex.  `vh` is the version-heuristic as in
`extractVersionInfo`.  Returns `none` exactly when the Go function
returns a non-nil error. -/
def ParsePattern (rc : Str → Option (Str → Bool)) (vh : Str → Option Str)
    (pattern : Str) : Option ParsedPattern :=
  let base : ParsedPattern :=
    { pattern := pattern
      isLiteral := !isRegexPattern pattern
      isCaseSensitive := isCaseSensitive pattern
      version := []
      confidence := 100 }
  let vi := extractVersionInfo vh pattern
  let pp := if vi.1 ≠ [] then { base with version := vi.1, confidence := vi.2 } else base
  let cleaned := cleanPatternString pattern
  if pp.isLiteral then some pp
  else
    match rc cleaned with
    | none => none
    | some _ => some { pp with pattern := cleaned }

/-- Embedding of `EvaluatePattern` (pattern.go).  `rc` and `vh` are as in
`ParsePattern`; the regex branch extracts a version from the target via
the same heuristic loop when the pattern carries none. -/
def EvaluatePattern (rc : Str → Option (Str → Bool)) (vh : Str → Option Str)
    (pp : ParsedPattern) (target : Str) : Bool × Str :=
  if pp.isLiteral then
    if pp.isCaseSensitive then (strContains target pp.pattern, pp.version)
    else (strContains (toLowerStr target) (toLowerStr pp.pattern), pp.version)
  else
    match rc pp.pattern with
    | none => (false, [])
    | some matcher =>
      if matcher target then
        (true, if pp.version = [] then (vh target).getD [] else pp.version)
      else (false, [])

/-! ## Channel matchers (internal/detection) -/

/-- Embedding of `MatchHeaders` (detection/headers.go): lower-case the
header names on both sides, add a technology when any value of a named
header matches its compiled pattern.  The accumulator is threaded
explicitly (the Go function mutates `technologies`). -/
def MatchHeaders (rc : Str → Option (Str → Bool)) (vh : Str → Option Str)
    (headerPatterns : List (Str × List (Str × ParsedPattern)))
    (headers : List (Str × List Str)) (techs : List Str) : List Str :=
  let normalizedHeaders :=
    headers.foldl (fun m kv => assocUpd m (toLowerStr kv.1) kv.2) []
  headerPatterns.foldl
    (fun acc tp =>
      if tp.2.any (fun hp =>
          match lookupA normalizedHeaders (toLowerStr hp.1) with
          | some values => values.any (fun v => (EvaluatePattern rc vh hp.2 v).1)
          | none => false)
      then insertTech acc tp.1 else acc)
    techs

/-- Embedding of `ExtractCookiesFromHeaders` (detection/headers.go):
the `Cookie` header is split on `;` into `name=value` pairs, the
`Set-Cookie` headers contribute their first `;`-delimited segment;
names are trimmed and lower-cased, values trimmed; later entries
overwrite earlier ones.  The header map is read only under the exact
keys `"Cookie"` and `"Set-Cookie"`. -/
def ExtractCookiesFromHeaders (headers : List (Str × List Str)) :
    List (Str × Str) :=
  let cookies0 : List (Str × Str) := []
  let cookies1 :=
    match lookupA headers "Cookie".data with
    | some cookieHeaders =>
      cookieHeaders.foldl
        (fun m ch =>
          (splitChar ';' ch).foldl
            (fun m pair =>
              let pair := trimStr pair
              if pair = [] then m
              else
                match splitN2 '=' pair with
                | [n, v] => assocUpd m (toLowerStr (trimStr n)) (trimStr v)
                | _ => m)
            m)
        cookies0
    | none => cookies0
  match lookupA headers "Set-Cookie".data with
  | some setCookieHeaders =>
    setCookieHeaders.foldl
      (fun m sch =>
        match splitN2 ';' sch with
        | [] => m
        | first :: _ =>
          match splitN2 '=' first with
          | [n, v] => assocUpd m (toLowerStr (trimStr n)) (trimStr v)
          | _ => m)
      cookies1
  | none => cookies1

/-- Embedding of `MatchCookies` (detection/cookies.go). -/
def MatchCookies (rc : Str → Option (Str → Bool)) (vh : Str → Option Str)
    (cookiePatterns : List (Str × List (Str × ParsedPattern)))
    (cookies : List (Str × Str)) (techs : List Str) : List Str :=
  let normalizedCookies :=
    cookies.foldl (fun m kv => assocUpd m (toLowerStr kv.1) kv.2) []
  cookiePatterns.foldl
    (fun acc tp =>
      if tp.2.any (fun cp =>
          match lookupA normalizedCookies (toLowerStr cp.1) with
          | some value => (EvaluatePattern rc vh cp.2 value).1
          | none => false)
      then insertTech acc tp.1 else acc)
    techs

/-- Embedding of `MatchHTML` (detection/html.go): every pattern is run
against the whole body text. -/
def MatchHTML (rc : Str → Option (Str → Bool)) (vh : Str → Option Str)
    (htmlPatterns : List (Str × List ParsedPattern))
    (body : Str) (techs : List Str) : List Str :=
  htmlPatterns.foldl
    (fun acc tp =>
      if tp.2.any (fun p => (EvaluatePattern rc vh p body).1)
      then insertTech acc tp.1 else acc)
    techs

/-- Embedding of `MatchScripts` (detection, script matcher): identical in
shape to the HTML matcher, run against the whole body text. -/
def MatchScripts (rc : Str → Option (Str → Bool)) (vh : Str → Option Str)
    (scriptPatterns : List (Str × List ParsedPattern))
    (body : Str) (techs : List Str) : List Str :=
  scriptPatterns.foldl
    (fun acc tp =>
      if tp.2.any (fun p => (EvaluatePattern rc vh p body).1)
      then insertTech acc tp.1 else acc)
    techs

/-- Embedding of `models.ScriptPattern`: one extracted script record. -/
structure ScriptRec where
  source : Str
  content : Str
  deriving DecidableEq, Repr

/-- Embedding of `MatchScriptSrc` (detection, script-src matcher): a
technology matches when some pattern matches some extracted script's
non-empty source URL. -/
def MatchScriptSrc (rc : Str → Option (Str → Bool)) (vh : Str → Option Str)
    (scriptSrcPatterns : List (Str × List ParsedPattern))
    (scripts : List ScriptRec) (techs : List Str) : List Str :=
  scriptSrcPatterns.foldl
    (fun acc tp =>
      if tp.2.any (fun p =>
          scripts.any (fun s =>
            s.source ≠ [] && (EvaluatePattern rc vh p s.source).1))
      then insertTech acc tp.1 else acc)
    techs

/-- Embedding of `MatchMetaTags` (detection/meta.go): meta names are
lower-cased on both sides; for a present meta name the patterns are
tried until one matches the content. -/
def MatchMetaTags (rc : Str → Option (Str → Bool)) (vh : Str → Option Str)
    (metaPatterns : List (Str × List (Str × List ParsedPattern)))
    (metaTags : List (Str × Str)) (techs : List Str) : List Str :=
  let normalizedMeta :=
    metaTags.foldl (fun m kv => assocUpd m (toLowerStr kv.1) kv.2) []
  metaPatterns.foldl
    (fun acc tp =>
      if tp.2.any (fun mp =>
          match lookupA normalizedMeta (toLowerStr mp.1) with
          | some content => mp.2.any (fun p => (EvaluatePattern rc vh p content).1)
          | none => false)
      then insertTech acc tp.1 else acc)
    techs

/-- Embedding of `MatchJS` (detection, JS matcher): the variable name is
looked up exactly, with no case normalization on either side. -/
def MatchJS (rc : Str → Option (Str → Bool)) (vh : Str → Option Str)
    (jsPatterns : List (Str × List (Str × ParsedPattern)))
    (jsVars : List (Str × Str)) (techs : List Str) : List Str :=
  jsPatterns.foldl
    (fun acc tp =>
      if tp.2.any (fun jp =>
          match lookupA jsVars jp.1 with
          | some value => (EvaluatePattern rc vh jp.2 value).1
          | none => false)
      then insertTech acc tp.1 else acc)
    techs

/-! ## Engine configuration and detection (pkg/wappalyzer/config.go) -/

/-- Embedding of `Config` (pkg/wappalyzer/config.go).  The `JSON` field
only selects the corpus at construction time and is not modelled. -/
structure Config where
  disableJSDetection : Bool := false
  disableHTMLDetection : Bool := false
  disableCookieDetection : Bool := false
  disableHeaderDetection : Bool := false
  disableMetaDetection : Bool := false
  disableScriptDetection : Bool := false
  maxBodySize : Int := 0
  deriving DecidableEq, Repr

/-- The pattern-holding state of a `Wappalyze` engine instance
(pkg/wappalyzer/config.go), with Go maps as association lists. -/
structure Wappalyze where
  config : Config
  headerPatterns : List (Str × List (Str × ParsedPattern)) := []
  cookiePatterns : List (Str × List (Str × ParsedPattern)) := []
  htmlPatterns : List (Str × List ParsedPattern) := []
  scriptPatterns : List (Str × List ParsedPattern) := []
  scriptSrcPatterns : List (Str × List ParsedPattern) := []
  metaPatterns : List (Str × List (Str × List ParsedPattern)) := []
  jsPatterns : List (Str × List (Str × ParsedPattern)) := []
  impliesMapping : List (Str × List Str) := []
  categoryMapping : List (Str × List Int) := []

/-- The body-scanning extractors (`parser.ExtractScripts`,
`parser.ExtractMetaTags`, `parser.ExtractJS`): regex-based text scanners
that the spec treats as an external black-box collaborator, taken here
as parameters of the detection pipeline. -/
structure Extractors where
  extractScripts : Str → List ScriptRec
  extractMetaTags : Str → List (Str × Str)
  extractJS : Str → List (Str × Str)

/-- Embedding of `detectTechnologies` (pkg/wappalyzer/config.go):
headers and cookies are matched unconditionally; the HTML, script
(inline and src), meta and JS channels are each guarded by their
configuration boolean, skipping extraction as well as matching. -/
def detectTechnologies (rc : Str → Option (Str → Bool)) (vh : Str → Option Str)
    (ext : Extractors) (w : Wappalyze)
    (headers : List (Str × List Str)) (body : Str)
    (techs : List Str) : List Str :=
  let t1 := MatchHeaders rc vh w.headerPatterns headers techs
  let cookies := ExtractCookiesFromHeaders headers
  let t2 := MatchCookies rc vh w.cookiePatterns cookies t1
  let t3 :=
    if !w.config.disableHTMLDetection then MatchHTML rc vh w.htmlPatterns body t2
    else t2
  let t4 :=
    if !w.config.disableScriptDetection then
      let t := MatchScripts rc vh w.scriptPatterns body t3
      MatchScriptSrc rc vh w.scriptSrcPatterns (ext.extractScripts body) t
    else t3
  let t5 :=
    if !w.config.disableMetaDetection then
      MatchMetaTags rc vh w.metaPatterns (ext.extractMetaTags body) t4
    else t4
  if !w.config.disableJSDetection then
    MatchJS rc vh w.jsPatterns (ext.extractJS body) t5
  else t5

/-! ## Implication closure (addImpliedTechnologies, pkg/wappalyzer/config.go)

The Go function runs a breadth-first traversal over the implies
relation: pop a name, look up its implied names, and for each implied
name not already present add it to the set and enqueue it.  The inner
`for _, implied := range implies` loop is `enqueueNew`; the outer
`for len(queue) > 0` loop is `addImpliedAux`, whose termination is
proved from the guard: every enqueue adds a fresh name to the result
set, and fresh names are drawn from the finite pool of implied names
occurring in the mapping. -/

/-- Inner loop of `addImpliedTechnologies`: add each implied name not
already present to the set and to the queue. -/
def enqueueNew : List Str → List Str → List Str → List Str × List Str
  | techs, queue, [] => (techs, queue)
  | techs, queue, i :: is =>
    if i ∈ techs then enqueueNew techs queue is
    else enqueueNew (techs ++ [i]) (queue ++ [i]) is

/-- All implied names occurring anywhere in the implies mapping. -/
def allImplied (m : List (Str × List Str)) : List Str :=
  (m.map Prod.snd).flatten

/-- Number of implied names of the mapping not yet in the set:
the potential of the termination measure. -/
def newCount (m : List (Str × List Str)) (techs : List Str) : Nat :=
  ((allImplied m).filter (fun x => decide (x ∉ techs))).length

def addImpliedAux (m : List (Str × List Str)) :
    List Str → List Str → List Str
  | [], techs => techs
  | current :: rest, techs =>
    match h : lookupA m current with
    | none => addImpliedAux m rest techs
    | some imps =>
      addImpliedAux m (enqueueNew techs rest imps).2 (enqueueNew techs rest imps).1
termination_by queue techs => queue.length + newCount m techs
decreasing_by
  · simp only [List.length_cons]; omega
  · have hlk : ∀ (mm : List (Str × List Str)) (k : Str) (v : List Str),
        lookupA mm k = some v → ∀ i ∈ v, i ∈ allImplied mm := by
      intro mm
      induction mm with
      | nil => intro k v hv; simp [lookupA] at hv
      | cons p rest' ih =>
        intro k v hv i hi
        by_cases hk : p.1 = k
        · have hpv : p.2 = v := by simpa [lookupA, hk] using hv
          subst hpv
          exact List.mem_flatten.2 ⟨p.2, by simp [allImplied], hi⟩
        · have h' : lookupA rest' k = some v := by simpa [lookupA, hk] using hv
          have := ih k v h' i hi
          simp only [allImplied, List.map_cons, List.flatten] at this ⊢
          exact List.mem_append_right _ this
    have hmono : ∀ (l : List Str) (p q : Str → Bool), (∀ x, p x = true → q x = true) →
        (l.filter p).length ≤ (l.filter q).length := by
      intro l p q hpq
      induction l with
      | nil => simp
      | cons a t ih =>
        cases hp : p a
        · cases hq : q a
          · simp only [List.filter, hp, hq]; exact ih
          · simp only [List.filter, hp, hq, List.length_cons]; omega
        · have hqa : q a = true := hpq a hp
          simp only [List.filter, hp, hqa, List.length_cons]; omega
    have hdroplt : ∀ (techs2 : List Str) (i : Str), i ∈ allImplied m → i ∉ techs2 →
        ((allImplied m).filter (fun x => decide (x ∉ techs2 ++ [i]))).length <
          ((allImplied m).filter (fun x => decide (x ∉ techs2))).length := by
      intro techs2 i hiS hit
      have hgen : ∀ (S : List Str), i ∈ S →
          (S.filter (fun x => decide (x ∉ techs2 ++ [i]))).length <
            (S.filter (fun x => decide (x ∉ techs2))).length := by
        intro S
        induction S with
        | nil => intro hc; cases hc
        | cons a t ih =>
          intro hmem
          by_cases hai : a = i
          · subst hai
            have h1 : (decide (a ∉ techs2 ++ [a])) = false := by simp
            have h2 : (decide (a ∉ techs2)) = true := by simpa using hit
            simp only [List.filter, h1, h2, List.length_cons]
            have hm2 := hmono t
              (fun x => decide (x ∉ techs2 ++ [a])) (fun x => decide (x ∉ techs2))
              (by
                intro x hx
                rw [decide_eq_true_iff] at hx ⊢
                exact fun hc => hx (List.mem_append_left _ hc))
            omega
          · have hit' : i ∈ t := by
              cases hmem with
              | head => exact absurd rfl hai
              | tail _ hm3 => exact hm3
            have hpred : (decide (a ∉ techs2 ++ [i])) = (decide (a ∉ techs2)) := by
              by_cases ha : a ∈ techs2
              · simp [ha]
              · simp [ha, hai]
            simp only [List.filter, hpred]
            have := ih hit'
            cases hq : (decide (a ∉ techs2)) <;>
              simp only [hq, List.length_cons] <;> omega
      exact hgen (allImplied m) hiS
    have hmeasure : ∀ (imps2 : List Str), (∀ i ∈ imps2, i ∈ allImplied m) →
        ∀ (techs2 queue2 : List Str),
        (enqueueNew techs2 queue2 imps2).2.length +
          ((allImplied m).filter
            (fun x => decide (x ∉ (enqueueNew techs2 queue2 imps2).1))).length ≤
        queue2.length +
          ((allImplied m).filter (fun x => decide (x ∉ techs2))).length := by
      intro imps2
      induction imps2 with
      | nil => intro _ techs2 queue2; simp [enqueueNew]
      | cons i is ih =>
        intro hsub techs2 queue2
        have hiS : i ∈ allImplied m := hsub i (List.mem_cons_self _ _)
        have hsub' : ∀ j ∈ is, j ∈ allImplied m :=
          fun j hj => hsub j (List.mem_cons_of_mem _ hj)
        by_cases hi : i ∈ techs2
        · simpa [enqueueNew, hi] using ih hsub' techs2 queue2
        · have huf : enqueueNew techs2 queue2 (i :: is) =
              enqueueNew (techs2 ++ [i]) (queue2 ++ [i]) is := by
            simp [enqueueNew, hi]
          have hstep := ih hsub' (techs2 ++ [i]) (queue2 ++ [i])
          have hdrop := hdroplt techs2 i hiS hi
          rw [huf]
          simp only [List.length_append, List.length_cons, List.length_nil] at hstep
          omega
    have hm := hmeasure imps (hlk m current imps h) techs rest
    simp only [newCount, List.length_cons]
    omega


/-- Embedding of `addImpliedTechnologies` (pkg/wappalyzer/config.go):
the queue is initialized with every already-detected technology. -/
def addImpliedTechnologies (m : List (Str × List Str)) (techs : List Str) :
    List Str :=
  addImpliedAux m techs techs

/-- The accumulator set is closed under the implies mapping: every
implied name of every member is itself a member. -/
def ClosedUnder (m : List (Str × List Str)) (techs : List Str) : Prop :=
  ∀ t ∈ techs, ∀ i ∈ ((lookupA m t).getD []), i ∈ techs

instance (m : List (Str × List Str)) (techs : List Str) :
    Decidable (ClosedUnder m techs) := by
  unfold ClosedUnder; infer_instance

/-! ## Group lookup (GetTechByGroup, pkg/wappalyzer/config.go) -/

/-- Embedding of `GetTechByGroup` (pkg/wappalyzer/config.go).  The Go
method reads the process-wide group-to-categories index through
`GetGroupCategories`; that index and the engine's technology-to-categories
mapping are passed explicitly.  The Go signature returns only `[]string`
(no error value): a group with no categories yields the nil slice. -/
def GetTechByGroup (groupCategories : List (Int × List Int))
    (categoryMapping : List (Str × List Int)) (groupID : Int) : List Str :=
  let categories := (lookupA groupCategories groupID).getD []
  if categories.isEmpty then []
  else
    categoryMapping.foldl
      (fun result tc =>
        if tc.2.any (fun catID => catID ∈ categories) then result ++ [tc.1]
        else result)
      []

/-! ## Signature compiler (internal/parser/compiler.go) -/

/-- Tagged variant for the loosely-typed `interface{}` channel fields of
the raw corpus: a single pattern string, a list of pattern strings, or
some other JSON shape (on which `extractPatternList` and
`processImpliesList` produce nothing string-valued). -/
inductive PatVal where
  | str (s : Str)
  | list (l : List Str)
  | other
  deriving DecidableEq, Repr

/-- Embedding of `extractPatternList` (compiler.go) on the shapes a raw
corpus field can take: a bare string gives a one-element list, a list of
strings is taken as-is, anything else contributes nothing. -/
def extractPatternList : Option PatVal → List Str
  | none => []
  | some (.str s) => [s]
  | some (.list l) => l
  | some .other => []

/-- Embedding of `processImpliesList` (compiler.go): the implies field
is normalized from string-or-list shape exactly like a pattern list. -/
def processImpliesList : Option PatVal → List Str
  | none => []
  | some (.str s) => [s]
  | some (.list l) => l
  | some .other => []

/-- Embedding of the raw `models.Fingerprint`: the per-channel raw
pattern fields in their authored shapes. -/
structure Fingerprint where
  cats : List Int := []
  description : Str := []
  website : Str := []
  cpe : Str := []
  headers : List (Str × Str) := []
  cookies : List (Str × Str) := []
  html : Option PatVal := none
  script : Option PatVal := none
  scriptSrc : Option PatVal := none
  meta : List (Str × PatVal) := []
  js : List (Str × Str) := []
  implies : Option PatVal := none

/-- Embedding of the pattern collections of `models.CompiledFingerprint`. -/
structure CompiledFingerprint where
  impliedTechs : List Str
  headerPatterns : List (Str × ParsedPattern)
  cookiePatterns : List (Str × ParsedPattern)
  htmlPatterns : List ParsedPattern
  scriptPatterns : List ParsedPattern
  scriptSrcPatterns : List ParsedPattern
  metaPatterns : List (Str × List ParsedPattern)
  jsPatterns : List (Str × ParsedPattern)
  deriving DecidableEq, Repr

/-- Per-technology body of the compilation loop of `CompileFingerprints`
(compiler.go): each channel's patterns are parsed independently, parse
failures are dropped silently; header, cookie and meta keys are
lower-cased on insertion, JS keys are inserted verbatim; a meta name is
inserted only when at least one of its patterns parsed. -/
def CompileFingerprint (rc : Str → Option (Str → Bool)) (vh : Str → Option Str)
    (app : Fingerprint) : CompiledFingerprint :=
  let headerPatterns :=
    app.headers.foldl
      (fun m kv =>
        match ParsePattern rc vh kv.2 with
        | none => m
        | some pp => assocUpd m (toLowerStr kv.1) pp)
      []
  let cookiePatterns :=
    app.cookies.foldl
      (fun m kv =>
        match ParsePattern rc vh kv.2 with
        | none => m
        | some pp => assocUpd m (toLowerStr kv.1) pp)
      []
  let htmlPatterns :=
    (extractPatternList app.html).foldl
      (fun l p =>
        match ParsePattern rc vh p with
        | none => l
        | some pp => l ++ [pp])
      []
  let scriptPatterns :=
    (extractPatternList app.script).foldl
      (fun l p =>
        match ParsePattern rc vh p with
        | none => l
        | some pp => l ++ [pp])
      []
  let scriptSrcPatterns :=
    (extractPatternList app.scriptSrc).foldl
      (fun l p =>
        match ParsePattern rc vh p with
        | none => l
        | some pp => l ++ [pp])
      []
  let metaPatterns :=
    app.meta.foldl
      (fun m nv =>
        let compiledPatterns :=
          (extractPatternList (some nv.2)).foldl
            (fun l p =>
              match ParsePattern rc vh p with
              | none => l
              | some pp => l ++ [pp])
            []
        if compiledPatterns.length > 0 then
          assocUpd m (toLowerStr nv.1) compiledPatterns
        else m)
      []
  let jsPatterns :=
    app.js.foldl
      (fun m kv =>
        match ParsePattern rc vh kv.2 with
        | none => m
        | some pp => assocUpd m kv.1 pp)
      []
  { impliedTechs := processImpliesList app.implies
    headerPatterns := headerPatterns
    cookiePatterns := cookiePatterns
    htmlPatterns := htmlPatterns
    scriptPatterns := scriptPatterns
    scriptSrcPatterns := scriptSrcPatterns
    metaPatterns := metaPatterns
    jsPatterns := jsPatterns }

/-! ## Concrete models of the external regexp library

The Go standard `regexp` package is outside this repository.  The two
places the core calls into it - `CompileRegex` (compile the normalized
pattern, then `MatchString`) and the ordered `versionPatterns` heuristic
list (`FindStringSubmatch`, first submatch of the first regex that
matches) - are parameters of the embedded functions above.  The closed
theorems below instantiate them with the following models, each honest
on the concrete inputs this file evaluates them on. -/

/-- Model of `CompileRegex` (regex.go) restricted to the pattern texts
this file compiles.  `CompileRegex` strips a `/.../` wrapper, prepends
`(?i)` when the pattern neither starts with `(?i)` nor contains `(?-i)`,
and compiles with `regexp.Compile`.  Modelled cases: the pattern `.+`
compiles and its regex matches a target iff the target contains a
non-newline character; a pattern free of regex metacharacters and not
`/.../`-wrapped compiles to a case-insensitive literal search, matching
iff the lower-cased target contains the lower-cased pattern.  Patterns
outside these two cases are not used by this file and map to `none`. -/
def modelCompile (p : Str) : Option (Str → Bool) :=
  if p = ".+".data then some (fun t => t.any (fun c => c ≠ '\n'))
  else if !hasSpecialChar p && !isSlashWrapped p then
    some (fun t => strContains (toLowerStr t) (toLowerStr p))
  else none

/-- Model of the `versionPatterns` heuristic loop (pattern.go) restricted
to the strings this file runs it on.  Each of the four regexes requires
its subject to contain the substring `version` or a decimal digit:
`\\;version:(.+)` needs a literal `\;version:`; `[^\d](\d+(?:\.\d+)+)`
and `\bv?(\d+(?:\.\d+)+)` need a dotted digit group; `version[:/\s]*([\d.]+)`
needs the substring `version` followed by digits or dots.  Among the
strings this file passes - pattern texts such as `foo`, `abc`, `hello`,
`x`, `/abc/`, `.+`, `x-powered-by`, and matched targets such as
`abc123` or `xyz` - only `version5` is matched by any of them: the
first three fail on it (no `\;version:`, no dotted group), and the
fourth yields the submatch `5`.  Every other input contains neither a
dotted digit group, nor `\;version:`, nor the substring `version`, so
all four regexes fail on it. -/
def modelHeuristic (s : Str) : Option Str :=
  if s = "version5".data then some "5".data else none

/-! ## Concrete instances used by the closed theorems -/

/-- Parse result of the literal pattern `foo`. -/
def ppFoo : ParsedPattern := ⟨"foo".data, true, false, [], 100⟩

/-- Parse result of the literal pattern `1`. -/
def ppOne : ParsedPattern := ⟨"1".data, true, false, [], 100⟩

/-- Parse result of the regex pattern `.+`. -/
def ppDotPlus : ParsedPattern := ⟨".+".data, false, false, [], 100⟩

/-- Parse result of the literal pattern `version5`, which picks up the
heuristic version `5` at confidence 70. -/
def ppVersion5 : ParsedPattern := ⟨"version5".data, true, false, "5".data, 70⟩

/-- Parse result of `foo\;confidence:50`: regex-classified (the directive
separator contains a backslash), cleaned to `foo`, confidence left at
the default 100. -/
def ppFooDirective : ParsedPattern := ⟨"foo".data, false, false, [], 100⟩

/-- Parse result of `foo\;version:1.2`: regex-classified, cleaned to
`foo`, static version `1.2` at confidence 80. -/
def ppFooVersion : ParsedPattern := ⟨"foo".data, false, false, "1.2".data, 80⟩

/-- Parse result of `/abc/`: regex-classified by the wrapping slashes,
stored with the cleaned pattern text `abc`. -/
def ppSlashAbc : ParsedPattern := ⟨"abc".data, false, false, [], 100⟩

/-- Parse result of the literal pattern `abc`. -/
def ppAbc : ParsedPattern := ⟨"abc".data, true, false, [], 100⟩

/-- Parse result of the literal pattern `hello`. -/
def ppHello : ParsedPattern := ⟨"hello".data, true, false, [], 100⟩

/-- An implies mapping with the two-cycle A implies B, B implies A. -/
def cycleImplies : List (Str × List Str) :=
  [("A".data, ["B".data]), ("B".data, ["A".data])]

/-- A configuration with every disable boolean set. -/
def allDisabledConfig : Config :=
  { disableJSDetection := true
    disableHTMLDetection := true
    disableCookieDetection := true
    disableHeaderDetection := true
    disableMetaDetection := true
    disableScriptDetection := true }

/-- An engine whose configuration disables every channel, carrying one
header signature and one cookie signature. -/
def engineAllDisabled : Wappalyze :=
  { config := allDisabledConfig
    headerPatterns := [("TechH".data, [("x-powered-by".data, ppFoo)])]
    cookiePatterns := [("TechC".data, [("sid".data, ppOne)])] }

/-- The headers of the cookie-extraction scenario of the spec. -/
def cookieScenarioHeaders : List (Str × List Str) :=
  [("Set-Cookie".data, ["session=abc123; Path=/".data])]

/-- Headers whose cookie-bearing entries use keys differing from
`Cookie` and `Set-Cookie` only in case. -/
def lowerCaseCookieHeaders : List (Str × List Str) :=
  [("set-cookie".data, ["session=abc123; Path=/".data]),
   ("SET-COOKIE".data, ["a=b".data])]

/-- A raw fingerprint whose only channel entry is a JS variable pattern
under the mixed-case key `JQuery`. -/
def fpJsUpper : Fingerprint := { js := [("JQuery".data, "x".data)] }

/-- A raw fingerprint whose only channel entry is a header pattern under
the mixed-case key `X-Powered-By`. -/
def fpHeaderUpper : Fingerprint :=
  { headers := [("X-Powered-By".data, "foo".data)] }

/-! ## Helper lemmas -/

theorem addImpliedAux_nil (m : List (Str × List Str)) (techs : List Str) :
    addImpliedAux m [] techs = techs := by
  rw [addImpliedAux.eq_def]

theorem addImpliedAux_cons_none (m : List (Str × List Str))
    (c : Str) (rest techs : List Str) (h : lookupA m c = none) :
    addImpliedAux m (c :: rest) techs = addImpliedAux m rest techs := by
  rw [addImpliedAux.eq_def]
  dsimp only
  rw [h]

theorem addImpliedAux_cons_some (m : List (Str × List Str))
    (c : Str) (rest techs imps : List Str) (h : lookupA m c = some imps) :
    addImpliedAux m (c :: rest) techs =
      addImpliedAux m (enqueueNew techs rest imps).2 (enqueueNew techs rest imps).1 := by
  rw [addImpliedAux.eq_def]
  dsimp only
  rw [h]

theorem enqueueNew_noop (techs queue imps : List Str)
    (h : ∀ i ∈ imps, i ∈ techs) : enqueueNew techs queue imps = (techs, queue) := by
  induction imps with
  | nil => rfl
  | cons i is ih =>
    have hi : i ∈ techs := h i (List.mem_cons_self _ _)
    simp only [enqueueNew, if_pos hi]
    exact ih (fun j hj => h j (List.mem_cons_of_mem _ hj))

theorem addImpliedAux_closed (m : List (Str × List Str)) (techs : List Str)
    (hc : ClosedUnder m techs) :
    ∀ queue, (∀ q ∈ queue, q ∈ techs) → addImpliedAux m queue techs = techs := by
  intro queue
  induction queue with
  | nil => intro _; exact addImpliedAux_nil m techs
  | cons c rest ih =>
    intro hq
    have hcm : c ∈ techs := hq c (List.mem_cons_self _ _)
    have hrest : ∀ q ∈ rest, q ∈ techs := fun q hr => hq q (List.mem_cons_of_mem _ hr)
    cases hl : lookupA m c with
    | none =>
      rw [addImpliedAux_cons_none m c rest techs hl]
      exact ih hrest
    | some imps =>
      have himp : ∀ i ∈ imps, i ∈ techs := by
        have hcc := hc c hcm
        rw [hl] at hcc
        simpa using hcc
      rw [addImpliedAux_cons_some m c rest techs imps hl,
        enqueueNew_noop techs rest imps himp]
      exact ih hrest

theorem matchCookies_no_cookies (rc : Str → Option (Str → Bool))
    (vh : Str → Option Str) :
    ∀ (cps : List (Str × List (Str × ParsedPattern))) (techs : List Str),
    MatchCookies rc vh cps [] techs = techs := by
  intro cps
  induction cps with
  | nil => intro techs; rfl
  | cons tp rest ih =>
    intro techs
    simp only [MatchCookies, List.foldl_nil, List.foldl_cons]
    have hany : (tp.2.any fun cp =>
        match lookupA ([] : List (Str × Str)) (toLowerStr cp.1) with
        | some value => (EvaluatePattern rc vh cp.2 value).1
        | none => false) = false := by
      rw [List.any_eq_false]
      intro cp _
      simp [lookupA]
    have hif : (if (tp.2.any fun cp =>
        match lookupA ([] : List (Str × Str)) (toLowerStr cp.1) with
        | some value => (EvaluatePattern rc vh cp.2 value).1
        | none => false) = true then insertTech techs tp.1 else techs) = techs := by
      rw [hany]
      simp
    rw [hif]
    exact ih techs

theorem parsePattern_isLiteral_eq (rc : Str → Option (Str → Bool))
    (vh : Str → Option Str) (p : Str) (pp : ParsedPattern)
    (h : ParsePattern rc vh p = some pp) :
    pp.isLiteral = !isRegexPattern p := by
  simp only [ParsePattern] at h
  split at h <;> split at h <;> try split at h
  all_goals first
    | (injection h with h'; subst h'; rfl)
    | cases h

theorem parsePattern_pattern_of_clean (rc : Str → Option (Str → Bool))
    (vh : Str → Option Str) (p : Str) (pp : ParsedPattern)
    (h : ParsePattern rc vh p = some pp) (hcl : cleanPatternString p = p) :
    pp.pattern = p := by
  simp only [ParsePattern, hcl] at h
  split at h <;> split at h <;> try split at h
  all_goals first
    | (injection h with h'; subst h'; rfl)
    | cases h

theorem mem_keys_assocUpd {β : Type} (m : List (Str × β)) (k0 : Str) (v : β) (k : Str)
    (h : k ∈ (assocUpd m k0 v).map Prod.fst) : k ∈ m.map Prod.fst ∨ k = k0 := by
  induction m with
  | nil =>
    right
    have hk : k ∈ [k0] := h
    simpa using hk
  | cons p rest ih =>
    by_cases hp : p.1 = k0
    · simp only [assocUpd, if_pos hp, List.map_cons, List.mem_cons] at h
      cases h with
      | inl h1 => right; exact h1
      | inr h1 => left; exact List.mem_cons_of_mem _ h1
    · simp only [assocUpd, if_neg hp, List.map_cons, List.mem_cons] at h
      cases h with
      | inl h1 => left; exact List.mem_cons.2 (Or.inl h1)
      | inr h1 =>
        cases ih h1 with
        | inl h2 => left; exact List.mem_cons_of_mem _ h2
        | inr h2 => right; exact h2

theorem keys_of_foldl {β γ : Type} (kf : γ → Str)
    (step : List (Str × β) → γ → List (Str × β))
    (hstep : ∀ m e k, k ∈ (step m e).map Prod.fst → k ∈ m.map Prod.fst ∨ k = kf e) :
    ∀ (entries : List γ) (init : List (Str × β)) (k : Str),
      k ∈ (entries.foldl step init).map Prod.fst →
      k ∈ init.map Prod.fst ∨ ∃ e ∈ entries, k = kf e := by
  intro entries
  induction entries with
  | nil => intro init k h; left; exact h
  | cons e es ih =>
    intro init k h
    have h2 := ih (step init e) k h
    cases h2 with
    | inl hin =>
      cases hstep init e k hin with
      | inl h3 => left; exact h3
      | inr h3 => right; exact ⟨e, List.mem_cons_self _ _, h3⟩
    | inr hex =>
      obtain ⟨e', he', hk⟩ := hex
      right
      exact ⟨e', List.mem_cons_of_mem _ he', hk⟩

/-! ## Claim theorems -/

/-- C1: the claim says every disable boolean of the configuration turns
off exactly its named channel.  The code of `detectTechnologies` never
consults `DisableHeaderDetection` or `DisableCookieDetection`: on an
engine whose configuration sets ALL six disable booleans, a response
whose only evidence is a matching header and a matching `Set-Cookie`
cookie still yields both technologies, for every regexp model and every
extractor (the extractors are never invoked since the guarded channels
are skipped).  This evaluates the code at the failing input of the
claim. -/
theorem c1_header_cookie_disable_flags_ignored :
    ParsePattern modelCompile modelHeuristic "foo".data = some ppFoo ∧
    ParsePattern modelCompile modelHeuristic "1".data = some ppOne ∧
    ∀ (rc : Str → Option (Str → Bool)) (vh : Str → Option Str) (ext : Extractors),
      detectTechnologies rc vh ext engineAllDisabled
        [("X-Powered-By".data, ["foo".data]), ("Set-Cookie".data, ["sid=1".data])]
        [] [] = ["TechH".data, "TechC".data] := by
  refine ⟨by decide, by decide, ?_⟩
  intro rc vh ext
  rfl

/-- C2 counterexample: the literal pattern `version5` parses with the
heuristic static version `5`; evaluating it against the non-matching
target `xyz` returns `(false, "5")`, not the `(false, "")` the claim
demands. -/
theorem c2_counterexample :
    ParsePattern modelCompile modelHeuristic "version5".data = some ppVersion5 ∧
    EvaluatePattern modelCompile modelHeuristic ppVersion5 "xyz".data =
      (false, "5".data) ∧
    ("5".data : Str) ≠ [] := by
  refine ⟨by decide, by decide, by decide⟩

/-- C2 (amended): when `Evaluate` reports no match, the version component
of the result is the empty string for regex-classified patterns (also
when compilation fails), while for literal patterns the statically known
version is returned alongside the `false` verdict: the literal branch
returns the pattern's version unconditionally. -/
theorem c2_no_match_version :
    ∀ (rc : Str → Option (Str → Bool)) (vh : Str → Option Str)
      (raw : Str) (pp : ParsedPattern) (target : Str),
    ParsePattern rc vh raw = some pp →
    (EvaluatePattern rc vh pp target).1 = false →
    (EvaluatePattern rc vh pp target).2 =
      (if pp.isLiteral then pp.version else []) := by
  intro rc vh raw pp target _hp hf
  cases hl : pp.isLiteral
  · simp only [EvaluatePattern, hl, Bool.false_eq_true, if_false] at hf ⊢
    cases hrc : rc pp.pattern
    · simp [hrc]
    · rename_i matcher
      simp only [hrc] at hf ⊢
      cases hm : matcher target
      · simp [hm]
      · simp [hm] at hf
  · cases hcs : pp.isCaseSensitive <;> simp [EvaluatePattern, hl, hcs]

/-- Witness for C2: the amended theorem applied to the parsed pattern of
`version5` and the non-matching target `xyz`. -/
theorem c2_no_match_version_witness :
    (EvaluatePattern modelCompile modelHeuristic ppVersion5 "xyz".data).2 =
      (if ppVersion5.isLiteral then ppVersion5.version else []) :=
  c2_no_match_version modelCompile modelHeuristic "version5".data ppVersion5
    "xyz".data (by decide) (by decide)

/-- C3: the claim (and the spec) say a `confidence:<int>` directive
overrides the default confidence of 100.  `extractVersionInfo` does
parse the directive of `foo\;confidence:50` and returns confidence 50
with no version, but `ParsePattern` applies the returned confidence only
under its `version != ""` guard, so the parsed pattern keeps the default
confidence 100: the parsed integer is discarded. -/
theorem c3_confidence_directive_discarded :
    extractVersionInfo modelHeuristic "foo\\;confidence:50".data = ([], 50) ∧
    ParsePattern modelCompile modelHeuristic "foo\\;confidence:50".data =
      some ppFooDirective ∧
    ppFooDirective.confidence = 100 := by
  refine ⟨by decide, by decide, by decide⟩

/-- C4: the implication-closure expansion is a fixed point on every
accumulator set already closed under the implies relation (running the
expansion returns the set unchanged), and on the two-cycle corpus where
A implies B and B implies A, expanding the set containing only A
terminates (the embedding is well-founded by construction) and yields
exactly the set containing A and B. -/
theorem c4_closure_fixed_point_and_cycle :
    (∀ (m : List (Str × List Str)) (techs : List Str),
      ClosedUnder m techs → addImpliedTechnologies m techs = techs) ∧
    addImpliedTechnologies cycleImplies ["A".data] =
      ["A".data, "B".data] := by
  constructor
  · intro m techs hc
    exact addImpliedAux_closed m techs hc techs (fun q hq => hq)
  · unfold addImpliedTechnologies
    rw [addImpliedAux_cons_some cycleImplies "A".data [] ["A".data] ["B".data]
      (by decide)]
    have h1 : enqueueNew ["A".data] [] ["B".data] =
        (["A".data, "B".data], ["B".data]) := by decide
    rw [h1]
    rw [addImpliedAux_cons_some cycleImplies "B".data [] ["A".data, "B".data]
      ["A".data] (by decide)]
    have h2 : enqueueNew ["A".data, "B".data] [] ["A".data] =
        (["A".data, "B".data], []) := by decide
    rw [h2]
    exact addImpliedAux_nil cycleImplies _

/-- Witness for C4: the fixed-point half applied to the concrete cycle
corpus at the already-closed set containing A and B. -/
theorem c4_closure_fixed_point_and_cycle_witness :
    addImpliedTechnologies cycleImplies ["A".data, "B".data] =
      ["A".data, "B".data] :=
  c4_closure_fixed_point_and_cycle.1 cycleImplies ["A".data, "B".data] (by decide)

/-- C5 counterexample: the pattern `foo\;version:1.2` has a cleaned text
`foo` free of regex metacharacters and is not `/.../`-wrapped, so the
claim classifies it as literal; the code classifies it as a regex,
because `isRegexPattern` inspects the raw pattern, whose directive
separator contains a backslash. -/
theorem c5_counterexample :
    ParsePattern modelCompile modelHeuristic "foo\\;version:1.2".data =
      some ppFooVersion ∧
    hasSpecialChar (cleanPatternString "foo\\;version:1.2".data) = false ∧
    isSlashWrapped "foo\\;version:1.2".data = false ∧
    ppFooVersion.isLiteral = false := by
  refine ⟨by decide, by decide, by decide, by decide⟩

/-- C5 (amended): `Parse` classifies a pattern as literal if and only if
the RAW pattern text contains none of the regex metacharacters and is
not wrapped in `/.../` delimiters; in particular a pattern whose only
metacharacters lie inside the directive suffix is classified as a regex,
since the `\;` separator itself contains a backslash. -/
theorem c5_literal_iff_raw :
    ∀ (rc : Str → Option (Str → Bool)) (vh : Str → Option Str)
      (p : Str) (pp : ParsedPattern),
    ParsePattern rc vh p = some pp →
    pp.isLiteral = (!hasSpecialChar p && !isSlashWrapped p) := by
  intro rc vh p pp h
  rw [parsePattern_isLiteral_eq rc vh p pp h, isRegexPattern]
  cases hasSpecialChar p <;> cases isSlashWrapped p <;> rfl

/-- Witness for C5: the amended classification equivalence at the
concrete literal pattern `abc`. -/
theorem c5_literal_iff_raw_witness :
    ppAbc.isLiteral = (!hasSpecialChar "abc".data && !isSlashWrapped "abc".data) :=
  c5_literal_iff_raw modelCompile modelHeuristic "abc".data ppAbc (by decide)

/-- C6 counterexample: parsing `/abc/` yields a regex-classified pattern
whose stored cleaned text is `abc`; re-parsing that stored text yields a
literal-classified pattern, so the literal/regex flag is not preserved
by re-parsing the cleaned output. -/
theorem c6_counterexample :
    ParsePattern modelCompile modelHeuristic "/abc/".data = some ppSlashAbc ∧
    ppSlashAbc.pattern = "abc".data ∧
    ParsePattern modelCompile modelHeuristic ppSlashAbc.pattern = some ppAbc ∧
    ppSlashAbc.isLiteral = false ∧
    ppAbc.isLiteral = true := by
  refine ⟨by decide, by decide, by decide, by decide, by decide⟩

/-- C6 (amended): parsing is idempotent whenever cleaning leaves the raw
pattern unchanged (no `\;` directive at positive index and no `/.../`
wrapper) - which covers every literal-classified pattern: re-parsing
the stored pattern text then reproduces the identical parsed pattern,
in particular the same literal/regex classification and the same
case-sensitivity flag.  The flags can differ only when the stripped
delimiters or directive suffix carried the only regex metacharacters,
as in the counterexample. -/
theorem c6_reparse_clean_fixed :
    ∀ (rc : Str → Option (Str → Bool)) (vh : Str → Option Str)
      (p : Str) (pp : ParsedPattern),
    ParsePattern rc vh p = some pp →
    cleanPatternString p = p →
    ParsePattern rc vh pp.pattern = some pp := by
  intro rc vh p pp h hcl
  rw [parsePattern_pattern_of_clean rc vh p pp h hcl]
  exact h

/-- Witness for C6: re-parsing the stored text of the parsed pattern of
`hello` reproduces it. -/
theorem c6_reparse_clean_fixed_witness :
    ParsePattern modelCompile modelHeuristic ppHello.pattern = some ppHello :=
  c6_reparse_clean_fixed modelCompile modelHeuristic "hello".data ppHello
    (by decide) (by decide)

/-- C7 counterexample: compiling a fingerprint whose JS channel is keyed
by `JQuery` produces a compiled JS pattern map whose key is still
`JQuery`, which is not a lower-cased string - the compiler lower-cases
header, cookie and meta keys but inserts JS keys verbatim. -/
theorem c7_counterexample :
    (CompileFingerprint modelCompile modelHeuristic fpJsUpper).jsPatterns.map
      Prod.fst = ["JQuery".data] ∧
    toLowerStr "JQuery".data ≠ "JQuery".data := by
  refine ⟨by decide, by decide⟩

/-- C7 (amended): in every compiled signature, every key of the compiled
header, cookie and meta pattern maps is the lower-casing of an authored
channel key, while every key of the compiled JS pattern map is an
authored JS variable key taken verbatim (JS lookups are case-sensitive
at match time). -/
theorem c7_compiled_key_casing :
    ∀ (rc : Str → Option (Str → Bool)) (vh : Str → Option Str)
      (app : Fingerprint),
    (∀ k, k ∈ (CompileFingerprint rc vh app).headerPatterns.map Prod.fst →
        ∃ k0 ∈ app.headers.map Prod.fst, k = toLowerStr k0) ∧
    (∀ k, k ∈ (CompileFingerprint rc vh app).cookiePatterns.map Prod.fst →
        ∃ k0 ∈ app.cookies.map Prod.fst, k = toLowerStr k0) ∧
    (∀ k, k ∈ (CompileFingerprint rc vh app).metaPatterns.map Prod.fst →
        ∃ k0 ∈ app.meta.map Prod.fst, k = toLowerStr k0) ∧
    (∀ k, k ∈ (CompileFingerprint rc vh app).jsPatterns.map Prod.fst →
        k ∈ app.js.map Prod.fst) := by
  intro rc vh app
  have hstepL : ∀ (m : List (Str × ParsedPattern)) (e : Str × Str) (k : Str),
      k ∈ ((match ParsePattern rc vh e.2 with
            | none => m
            | some pp => assocUpd m (toLowerStr e.1) pp) :
            List (Str × ParsedPattern)).map Prod.fst →
      k ∈ m.map Prod.fst ∨ k = toLowerStr e.1 := by
    intro m e k hk
    cases hpe : ParsePattern rc vh e.2 with
    | none => rw [hpe] at hk; left; exact hk
    | some pp => rw [hpe] at hk; exact mem_keys_assocUpd m _ pp k hk
  have hstepJs : ∀ (m : List (Str × ParsedPattern)) (e : Str × Str) (k : Str),
      k ∈ ((match ParsePattern rc vh e.2 with
            | none => m
            | some pp => assocUpd m e.1 pp) :
            List (Str × ParsedPattern)).map Prod.fst →
      k ∈ m.map Prod.fst ∨ k = e.1 := by
    intro m e k hk
    cases hpe : ParsePattern rc vh e.2 with
    | none => rw [hpe] at hk; left; exact hk
    | some pp => rw [hpe] at hk; exact mem_keys_assocUpd m _ pp k hk
  have hstepMeta : ∀ (m : List (Str × List ParsedPattern)) (e : Str × PatVal)
      (k : Str),
      k ∈ ((let compiledPatterns :=
              (extractPatternList (some e.2)).foldl
                (fun l p =>
                  match ParsePattern rc vh p with
                  | none => l
                  | some pp => l ++ [pp]) []
            if compiledPatterns.length > 0 then
              assocUpd m (toLowerStr e.1) compiledPatterns
            else m) : List (Str × List ParsedPattern)).map Prod.fst →
      k ∈ m.map Prod.fst ∨ k = toLowerStr e.1 := by
    intro m e k hk
    simp only at hk
    split at hk
    · exact mem_keys_assocUpd m _ _ k hk
    · left; exact hk
  refine ⟨?_, ?_, ?_, ?_⟩
  · intro k hk
    have h2 := keys_of_foldl (fun kv : Str × Str => toLowerStr kv.1) _ hstepL
      app.headers [] k hk
    cases h2 with
    | inl h0 => simp at h0
    | inr hex =>
      obtain ⟨e, he, hkk⟩ := hex
      exact ⟨e.1, List.mem_map.2 ⟨e, he, rfl⟩, hkk⟩
  · intro k hk
    have h2 := keys_of_foldl (fun kv : Str × Str => toLowerStr kv.1) _ hstepL
      app.cookies [] k hk
    cases h2 with
    | inl h0 => simp at h0
    | inr hex =>
      obtain ⟨e, he, hkk⟩ := hex
      exact ⟨e.1, List.mem_map.2 ⟨e, he, rfl⟩, hkk⟩
  · intro k hk
    have h2 := keys_of_foldl (fun kv : Str × PatVal => toLowerStr kv.1) _ hstepMeta
      app.meta [] k hk
    cases h2 with
    | inl h0 => simp at h0
    | inr hex =>
      obtain ⟨e, he, hkk⟩ := hex
      exact ⟨e.1, List.mem_map.2 ⟨e, he, rfl⟩, hkk⟩
  · intro k hk
    have h2 := keys_of_foldl (fun kv : Str × Str => kv.1) _ hstepJs
      app.js [] k hk
    cases h2 with
    | inl h0 => simp at h0
    | inr hex =>
      obtain ⟨e, he, hkk⟩ := hex
      rw [hkk]
      exact List.mem_map.2 ⟨e, he, rfl⟩

/-- Witness for C7: the header conjunct applied to a fingerprint with
the authored header key `X-Powered-By`, whose compiled key is its
lower-casing `x-powered-by`. -/
theorem c7_compiled_key_casing_witness :
    ∃ k0 ∈ fpHeaderUpper.headers.map Prod.fst,
      "x-powered-by".data = toLowerStr k0 :=
  (c7_compiled_key_casing modelCompile modelHeuristic fpHeaderUpper).1
    "x-powered-by".data (by decide)

/-- C8: from the header `Set-Cookie: session=abc123; Path=/`, cookie
synthesis produces exactly the mapping sending `session` (first
`;`-delimited segment, name lower-cased, whitespace trimmed) to
`abc123`, and a technology whose compiled cookie pattern map has the
key `session` with the parsed pattern `.+` is added to the accumulator
by the cookie matcher. -/
theorem c8_cookie_extraction_scenario :
    ParsePattern modelCompile modelHeuristic ".+".data = some ppDotPlus ∧
    ExtractCookiesFromHeaders cookieScenarioHeaders =
      [("session".data, "abc123".data)] ∧
    MatchCookies modelCompile modelHeuristic
      [("SessionTech".data, [("session".data, ppDotPlus)])]
      (ExtractCookiesFromHeaders cookieScenarioHeaders) [] =
      ["SessionTech".data] := by
  refine ⟨by decide, by decide, by decide⟩

/-- C9: for every group ID absent from the group-to-categories index,
`GetTechByGroup` returns the empty list; its Go signature returns only
a string slice, so no error value exists to return and the lookup
cannot fail on an unknown caller-supplied identifier. -/
theorem c9_unknown_group_returns_empty :
    ∀ (groupCategories : List (Int × List Int))
      (categoryMapping : List (Str × List Int)) (groupID : Int),
    lookupA groupCategories groupID = none →
    GetTechByGroup groupCategories categoryMapping groupID = [] := by
  intro gc cm gid h
  simp [GetTechByGroup, h]

/-- Witness for C9: the group lookup at the absent group ID 2. -/
theorem c9_unknown_group_returns_empty_witness :
    GetTechByGroup [((1 : Int), [10])] [("TechG".data, [10])] 2 = [] :=
  c9_unknown_group_returns_empty [((1 : Int), [10])] [("TechG".data, [10])] 2
    (by decide)

/-- C10: cookie synthesis reads the headers mapping only under the exact
case-sensitive keys `Cookie` and `Set-Cookie`: whenever neither exact
key is present (e.g. the cookie-bearing entries use keys differing only
in case), the synthesized cookie mapping is empty and the cookie
matcher leaves the accumulator unchanged for every pattern corpus. -/
theorem c10_cookie_header_keys_exact :
    ∀ (headers : List (Str × List Str)),
    lookupA headers "Cookie".data = none →
    lookupA headers "Set-Cookie".data = none →
    ExtractCookiesFromHeaders headers = [] ∧
    ∀ (rc : Str → Option (Str → Bool)) (vh : Str → Option Str)
      (cps : List (Str × List (Str × ParsedPattern))) (techs : List Str),
      MatchCookies rc vh cps (ExtractCookiesFromHeaders headers) techs = techs := by
  intro headers h1 h2
  have hext : ExtractCookiesFromHeaders headers = [] := by
    unfold ExtractCookiesFromHeaders
    simp only [h1, h2]
  refine ⟨hext, ?_⟩
  intro rc vh cps techs
  rw [hext]
  exact matchCookies_no_cookies rc vh cps techs

/-- Witness for C10: headers holding the cookie data only under
`set-cookie` and `SET-COOKIE` synthesize no cookies, and the cookie
matcher reports nothing for the `session` signature that would match
under the exact `Set-Cookie` key. -/
theorem c10_cookie_header_keys_exact_witness :
    ExtractCookiesFromHeaders lowerCaseCookieHeaders = [] ∧
    MatchCookies modelCompile modelHeuristic
      [("SessionTech".data, [("session".data, ppDotPlus)])]
      (ExtractCookiesFromHeaders lowerCaseCookieHeaders) [] = [] := by
  have h := c10_cookie_header_keys_exact lowerCaseCookieHeaders
    (by decide) (by decide)
  exact ⟨h.1, h.2 modelCompile modelHeuristic
    [("SessionTech".data, [("session".data, ppDotPlus)])] []⟩

end Wapp
